import Mathlib

/-!
Verification of the Doppler correction engine
(`lib/doppler_correction_impl.cc` of gr-satellites).

The numeric double-precision quantities of the source are embedded as exact
ordered-field values: the table machinery (cursor advance, interpolation) is
stated generically over a `LinearOrderedField` so that it can be instantiated
both at `ℚ` (for concrete evaluation) and at `ℝ` (as used by the engine,
whose phase wrapping involves `π`).
-/

/-- The cursor-advance `while` loop of `work`
(`while (d_current_index + 1 < times.size() && times[d_current_index + 1] <= time)
  ++d_current_index;`), written with explicit fuel.  `advance` below supplies
fuel `times.length`, which is enough for the loop condition to be false
whenever the fuel runs out, so the fueled version coincides with the loop. -/
def advanceIndex {α : Type} [LinearOrderedField α] (times : List α) (t : α) :
    ℕ → ℕ → ℕ
  | 0, c => c
  | fuel + 1, c =>
    if c + 1 < times.length ∧ times.getD (c + 1) 0 ≤ t then
      advanceIndex times t fuel (c + 1)
    else c

/-- Cursor advance as performed at the start of each sample iteration of
`work`: starting from cursor `c`, move forward while the next entry's time
is `≤ t`. -/
def advance {α : Type} [LinearOrderedField α] (times : List α) (t : α) (c : ℕ) : ℕ :=
  advanceIndex times t times.length c

/-- The frequency selection of `work` for an (already advanced) cursor `c`:
hold the edge value if `time < times[c]` or `c` is the last index, otherwise
linearly interpolate between entries `c` and `c+1`
(`alpha = (time - times[c]) / (times[c+1] - times[c])`). -/
def lookupFreq {α : Type} [LinearOrderedField α] (times freqs : List α) (c : ℕ)
    (t : α) : α :=
  if t < times.getD c 0 ∨ c + 1 = times.length then freqs.getD c 0
  else
    let alpha := (t - times.getD c 0) / (times.getD (c + 1) 0 - times.getD c 0)
    (1 - alpha) * freqs.getD c 0 + alpha * freqs.getD (c + 1) 0

/-- The per-sample table lookup of `work`: advance the cursor, then select
the (held or interpolated) frequency. -/
def queryFrequency {α : Type} [LinearOrderedField α] (times freqs : List α)
    (c : ℕ) (t : α) : α :=
  lookupFreq times freqs (advance times t c) t

/-- The sequence of cursor positions (`d_current_index`) used by successive
lookups for a sequence of query times. -/
def cursorTrace {α : Type} [LinearOrderedField α] (times : List α) :
    ℕ → List α → List ℕ
  | _, [] => []
  | c, t :: ts => advance times t c :: cursorTrace times (advance times t c) ts

/-!
## File parsing (`read_doppler_file`)

The Doppler file is modelled as the sequence of whitespace-separated tokens
it contains: `some x` is a token that parses as the number `x`, `none` is a
malformed token.  `trailingWs` records whether whitespace (possibly a final
newline) follows the last token; an empty or all-whitespace file has no
tokens.  The `std::istream` state is the pair of `failbit`/`eofbit` flags
plus the reading position.

`extract` models `operator>>(double&)`:
* if the stream is not `good()`, the sentry fails, sets `failbit`, and the
  target variable is left unmodified;
* if the sentry's whitespace skip reaches end of input, it sets `failbit`
  and `eofbit` and the target variable is left unmodified;
* on a token, `num_get` runs: a numeric token is stored (setting `eofbit`
  when it is the last token and no whitespace follows); a malformed token
  sets `failbit` and stores zero (C++11 behaviour of a failed conversion).
-/

/-- A Doppler table file: its tokens and whether trailing whitespace follows
the last token. -/
structure DopplerFile where
  fields : List (Option ℝ)
  trailingWs : Bool

/-- `std::ifstream` state: reading position plus `failbit`/`eofbit`. -/
structure StreamState where
  pos : ℕ
  failbit : Bool
  eofbit : Bool

/-- One formatted extraction `input_file >> v`, returning the new stream
state and the new contents of the target variable `v`. -/
def extract (file : DopplerFile) (s : StreamState) (v : ℝ) : StreamState × ℝ :=
  if s.failbit || s.eofbit then ({ s with failbit := true }, v)
  else
    match file.fields[s.pos]? with
    | some (some q) =>
        ({ s with
            pos := s.pos + 1,
            eofbit := decide (s.pos + 1 = file.fields.length ∧ file.trailingWs = false) }, q)
    | some none => ({ s with failbit := true }, 0)
    | none => ({ s with failbit := true, eofbit := true }, v)

/-- Termination measure for the read loop: each executed loop body either
advances the position or raises a stream flag. -/
def smeasure (file : DopplerFile) (s : StreamState) : ℕ :=
  2 * (file.fields.length - s.pos) + (if s.eofbit then 0 else 1) +
    (if s.failbit then 0 else 1)

theorem getElem?_pos_lt {β : Type} (l : List β) (i : ℕ) (x : β)
    (hp : l[i]? = some x) : i < l.length := by
  by_contra hge
  rw [List.getElem?_eq_none (Nat.le_of_not_lt hge)] at hp
  exact absurd hp (by simp)

theorem extract_smeasure_le (file : DopplerFile) (s : StreamState) (v : ℝ) :
    smeasure file (extract file s v).1 ≤ smeasure file s := by
  unfold extract
  split
  · simp [smeasure] <;> split_ifs <;> omega
  · split
    · rename_i q hp
      have hlt := getElem?_pos_lt _ _ _ hp
      simp [smeasure] <;> split_ifs <;> omega
    · simp [smeasure] <;> split_ifs <;> omega
    · simp [smeasure] <;> split_ifs <;> omega

theorem extract_smeasure_lt (file : DopplerFile) (s : StreamState) (v : ℝ)
    (hf : s.failbit = false) (he : s.eofbit = false) :
    smeasure file (extract file s v).1 < smeasure file s := by
  obtain ⟨pos, fb, eb⟩ := s
  simp only at hf he
  subst hf he
  unfold extract
  split
  · rename_i hcond
    exact absurd hcond (by simp)
  · split
    · rename_i q hp
      have hlt : pos < file.fields.length := getElem?_pos_lt _ _ _ hp
      simp [smeasure]
      try split_ifs
      all_goals omega
    · simp [smeasure]
      try split_ifs
      all_goals omega
    · simp [smeasure]
      try split_ifs
      all_goals omega

/-- The read loop of `read_doppler_file`:
`while (!eof) { if (!good) throw; in >> time >> frequency;
 times.push_back(time); freqs.push_back(2π·frequency/samp_rate); }`.
`time`/`freq` are the loop-carried contents of the two local `double`
variables; `ts`/`fs` the vectors accumulated so far. -/
noncomputable def readLoop (file : DopplerFile) (rate : ℝ) (s : StreamState)
    (time freq : ℝ) (ts fs : List ℝ) : Except Unit (List ℝ × List ℝ) :=
  if s.eofbit then .ok (ts, fs)
  else if s.failbit then .error ()
  else
    let e1 := extract file s time
    let e2 := extract file e1.1 freq
    readLoop file rate e2.1 e1.2 e2.2 (ts ++ [e1.2])
      (fs ++ [2 * Real.pi * e2.2 / rate])
termination_by smeasure file s
decreasing_by
  exact lt_of_le_of_lt (extract_smeasure_le file e1.1 freq)
    (extract_smeasure_lt file s time (by simpa using ‹¬s.failbit = true›)
      (by simpa using ‹¬s.eofbit = true›))

/-- `read_doppler_file`, started on a freshly opened stream.  `time0` and
`freq0` are the initial (indeterminate) contents of the two uninitialized
local `double` variables. -/
noncomputable def read_doppler_file (file : DopplerFile) (rate : ℝ) (time0 freq0 : ℝ) :
    Except Unit (List ℝ × List ℝ) :=
  readLoop file rate ⟨0, false, false⟩ time0 freq0 [] []


/-!
## The correction engine (`doppler_correction_impl`)
-/

/-- Modelled from the spec: `phase_wrap` (declared in the block's header,
outside the provided source) reduces the accumulated phase into a canonical
bounded range around zero without changing the represented rotation:
it subtracts the nearest integer multiple of `2π`. -/
noncomputable def phase_wrap (p : ℝ) : ℝ :=
  p - 2 * Real.pi * round (p / (2 * Real.pi))

/-- Modelled from the spec: `gr_expj θ` (from the host framework's
`<gnuradio/expj.h>`) is the unit-magnitude complex oscillator sample at
angle `θ`, `cos θ + i sin θ`. -/
noncomputable def gr_expj (θ : ℝ) : ℂ :=
  Complex.exp (θ * Complex.I)

/-- The state of a `doppler_correction_impl` block: the fields of the C++
class (member vectors `times`, `freqs_rad_per_sample` included). -/
structure DopplerBlock where
  d_phase : ℝ
  d_samp_rate : ℝ
  d_current_index : ℕ
  d_t0 : ℝ
  d_sample_t0 : ℕ
  times : List ℝ
  freqs_rad_per_sample : List ℝ

/-- An `rx_time` stream tag as seen by `work`: its absolute sample offset
and its pmt value, which is expected to be a `(uint64 seconds, double
fractional-seconds)` tuple (`isTuple = false` models a non-tuple value,
which `work` ignores). -/
structure RxTimeTag where
  offset : ℕ
  isTuple : Bool
  secs : ℕ
  frac : ℝ

/-- The tag loop at the head of `work`: every `rx_time` tag found in the
window is applied before any sample is processed; each tuple-valued tag
overwrites `d_sample_t0` with its offset and `d_t0` with seconds +
fractional seconds (the last tag in the list wins). -/
def applyTags (s : DopplerBlock) (tags : List RxTimeTag) : DopplerBlock :=
  tags.foldl
    (fun st tag =>
      if tag.isTuple then
        { st with d_sample_t0 := tag.offset, d_t0 := (tag.secs : ℝ) + tag.frac }
      else st)
    s

/-- The absolute time computed for sample `j` of the current buffer:
`d_t0 + (nitems_written(0) - d_sample_t0 + j) / d_samp_rate`, with the
index arithmetic taken over `ℤ` (no machine wrap-around). -/
noncomputable def sampleTime (s : DopplerBlock) (nw : ℕ) (j : ℕ) : ℝ :=
  s.d_t0 + (((nw : ℤ) - (s.d_sample_t0 : ℤ) + (j : ℤ) : ℤ) : ℝ) / s.d_samp_rate

/-- One iteration of the sample loop of `work` at buffer offset `j`:
advance the table cursor for the sample's absolute time, look up the (held
or interpolated) frequency, integrate it into the phase, wrap the phase,
and mix the input sample with the conjugate oscillator `gr_expj(-d_phase)`. -/
noncomputable def sampleStep (s : DopplerBlock) (nw : ℕ) (j : ℕ) (x : ℂ) :
    DopplerBlock × ℂ :=
  let time := sampleTime s nw j
  let c := advance s.times time s.d_current_index
  let freq := lookupFreq s.times s.freqs_rad_per_sample c time
  let phase := phase_wrap (s.d_phase + freq)
  ({ s with d_current_index := c, d_phase := phase }, x * gr_expj (-phase))

/-- The sample loop of `work`, processing the samples of the buffer in
index order starting at offset `j`. -/
noncomputable def workLoop (nw : ℕ) : DopplerBlock → ℕ → List ℂ →
    DopplerBlock × List ℂ
  | s, _, [] => (s, [])
  | s, j, x :: xs =>
    let r := sampleStep s nw j x
    let rest := workLoop nw r.1 (j + 1) xs
    (rest.1, r.2 :: rest.2)

/-- `work`: apply every `rx_time` tag of the window, then run the sample
loop over the whole input buffer.  `nw` is `nitems_written(0)`, the global
sample count at the start of the buffer. -/
noncomputable def work (s : DopplerBlock) (nw : ℕ) (tags : List RxTimeTag)
    (input : List ℂ) : DopplerBlock × List ℂ :=
  workLoop nw (applyTags s tags) 0 input

/-- The `TimeAnchor` state (`d_t0`, `d_sample_t0`) in effect when sample
`j` of the buffer is processed: the block state after the tag loop and the
first `j` sample iterations. -/
noncomputable def anchorAtSample (s : DopplerBlock) (nw : ℕ)
    (tags : List RxTimeTag) (input : List ℂ) (j : ℕ) : ℝ × ℕ :=
  ((workLoop nw (applyTags s tags) 0 (input.take j)).1.d_t0,
   (workLoop nw (applyTags s tags) 0 (input.take j)).1.d_sample_t0)

/-- The absolute time `work` computes for sample `j` of the buffer. -/
noncomputable def timeAtSample (s : DopplerBlock) (nw : ℕ)
    (tags : List RxTimeTag) (input : List ℂ) (j : ℕ) : ℝ :=
  sampleTime (workLoop nw (applyTags s tags) 0 (input.take j)).1 nw j

/-- The constructor `doppler_correction_impl(filename, samp_rate, t0)`:
initializes `d_phase = 0`, `d_current_index = 0`, `d_sample_t0 = 0`,
stores `samp_rate` and `t0` without any validation, and reads the Doppler
file (whose parse failure propagates as the only construction failure).
`time0`/`freq0` are the indeterminate initial contents of the parser's
local variables. -/
noncomputable def doppler_correction_impl (file : DopplerFile)
    (samp_rate : ℝ) (t0 : ℝ) (time0 freq0 : ℝ) : Except Unit DopplerBlock :=
  match read_doppler_file file samp_rate time0 freq0 with
  | .error e => .error e
  | .ok tf =>
      .ok { d_phase := 0, d_samp_rate := samp_rate, d_current_index := 0,
            d_t0 := t0, d_sample_t0 := 0, times := tf.1,
            freqs_rad_per_sample := tf.2 }

/-- A record list flattened into the token sequence of a Doppler file:
each record contributes a time token and a frequency token. -/
def flatRecs : List (ℝ × ℝ) → List (Option ℝ)
  | [] => []
  | r :: rest => some r.1 :: some r.2 :: flatRecs rest

/-!
## Theorems
-/

theorem le_advanceIndex {α : Type} [LinearOrderedField α] (times : List α)
    (t : α) : ∀ (fuel c : ℕ), c ≤ advanceIndex times t fuel c := by
  intro fuel
  induction fuel with
  | zero => intro c; exact le_refl c
  | succ n ih =>
    intro c
    unfold advanceIndex
    split
    · exact le_trans (Nat.le_succ c) (ih (c + 1))
    · exact le_refl c

/-- C1: when the advanced cursor satisfies `times[cursor] ≤ t` and is not
the last index, the per-sample lookup of `work` returns the exact linear
interpolation `(1-alpha)*freqs[cursor] + alpha*freqs[cursor+1]` with
`alpha = (t - times[cursor]) / (times[cursor+1] - times[cursor])`; in
particular, for a two-entry table `(t0,f0), (t1,f1)` with `t0 < t1`,
querying `t0` returns `f0` and querying `t1` returns `f1` exactly. -/
theorem queryFrequency_interpolates :
    (∀ {α : Type} [LinearOrderedField α] (times freqs : List α) (c : ℕ) (t : α),
      2 ≤ times.length →
      times.getD (advance times t c) 0 ≤ t →
      advance times t c + 1 < times.length →
      queryFrequency times freqs c t =
        (1 - (t - times.getD (advance times t c) 0) /
            (times.getD (advance times t c + 1) 0 - times.getD (advance times t c) 0)) *
            freqs.getD (advance times t c) 0 +
          (t - times.getD (advance times t c) 0) /
            (times.getD (advance times t c + 1) 0 - times.getD (advance times t c) 0) *
            freqs.getD (advance times t c + 1) 0) ∧
    (∀ {α : Type} [LinearOrderedField α] (ta fa tb fc : α), ta < tb →
      queryFrequency [ta, tb] [fa, fc] 0 ta = fa ∧
      queryFrequency [ta, tb] [fa, fc] 0 tb = fc) := by
  constructor
  · intro α _ times freqs c t _ hle hlt
    unfold queryFrequency lookupFreq
    rw [if_neg]
    push_neg
    exact ⟨hle, by omega⟩
  · intro α _ ta fa tb fc h
    have hadv1 : advance [ta, tb] ta 0 = 0 := by
      unfold advance advanceIndex
      simp [not_le.mpr h]
    have hadv2 : advance [ta, tb] tb 0 = 1 := by
      simp [advance, advanceIndex]
    constructor
    · unfold queryFrequency
      rw [hadv1]
      unfold lookupFreq
      rw [if_neg (by simp)]
      simp
    · unfold queryFrequency
      rw [hadv2]
      unfold lookupFreq
      rw [if_pos (by simp)]
      simp

/-- Witness for C1: concrete evaluations via `queryFrequency_interpolates`. -/
theorem queryFrequency_interpolates_w :
    queryFrequency (α := ℚ) [0, 2] [10, 20] 0 1 = 15 ∧
    queryFrequency (α := ℚ) [3, 7] [11, 13] 0 3 = 11 ∧
    queryFrequency (α := ℚ) [3, 7] [11, 13] 0 7 = 13 := by
  have hadv : advance (α := ℚ) [0, 2] 1 0 = 0 := by
    simp [advance, advanceIndex]
  refine ⟨?_, ?_, ?_⟩
  · have h := queryFrequency_interpolates.1 (α := ℚ) [0, 2] [10, 20] 0 1
      (by norm_num) (by rw [hadv]; norm_num) (by rw [hadv]; norm_num)
    rw [h, hadv]
    norm_num
  · exact (queryFrequency_interpolates.2 (3 : ℚ) 11 7 13 (by norm_num)).1
  · exact (queryFrequency_interpolates.2 (3 : ℚ) 11 7 13 (by norm_num)).2

/-- C2: for a non-empty table with non-decreasing times, a query strictly
before `times[0]` with the cursor at its initial position returns
`freqs[0]`, and a query after `times[last]` with the cursor at the last
index returns `freqs[last]` — constant-frequency hold at both boundaries. -/
theorem queryFrequency_boundary_hold :
    (∀ {α : Type} [LinearOrderedField α] (times freqs : List α) (t : α),
      times ≠ [] → times.Chain' (· ≤ ·) → t < times.getD 0 0 →
      queryFrequency times freqs 0 t = freqs.getD 0 0) ∧
    (∀ {α : Type} [LinearOrderedField α] (times freqs : List α) (t : α),
      times ≠ [] → times.getD (times.length - 1) 0 < t →
      queryFrequency times freqs (times.length - 1) t =
        freqs.getD (times.length - 1) 0) := by
  constructor
  · intro α _ times freqs t hne hchain ht
    have hadv : advance times t 0 = 0 := by
      unfold advance
      rcases times with _ | ⟨a, rest⟩
      · exact absurd rfl hne
      · rcases rest with _ | ⟨b, rest2⟩
        · simp [advanceIndex]
        · have hab : a ≤ b := (List.chain'_cons.mp hchain).1
          have htb : ¬b ≤ t := by
            simp only [List.getD_cons_zero] at ht
            exact not_le.mpr (lt_of_lt_of_le ht hab)
          simp [advanceIndex, htb]
    unfold queryFrequency
    rw [hadv]
    unfold lookupFreq
    rw [if_pos (Or.inl ht)]
  · intro α _ times freqs t hne hlast
    have hlen : 1 ≤ times.length := by
      rcases times with _ | _
      · exact absurd rfl hne
      · simp
    have hadv : advance times t (times.length - 1) = times.length - 1 := by
      unfold advance
      rcases hfuel : times.length with _ | n
      · omega
      · unfold advanceIndex
        rw [if_neg (by omega)]
    unfold queryFrequency
    rw [hadv]
    unfold lookupFreq
    rw [if_pos (Or.inr (by omega))]

/-- Witness for C2: concrete boundary queries via
`queryFrequency_boundary_hold`. -/
theorem queryFrequency_boundary_hold_w :
    queryFrequency (α := ℚ) [1, 2] [5, 7] 0 0 = 5 ∧
    queryFrequency (α := ℚ) [1, 2] [5, 7] 1 3 = 7 := by
  constructor
  · have h := queryFrequency_boundary_hold.1 (α := ℚ) [1, 2] [5, 7] 0
      (by simp) (by simp) (by norm_num)
    simpa using h
  · have h := queryFrequency_boundary_hold.2 (α := ℚ) [1, 2] [5, 7] 3
      (by simp) (by norm_num)
    simpa using h

/-- C7: across any succession of queries with non-decreasing times, the
sequence of cursor positions (`d_current_index`) used by the lookups is
non-decreasing — the cursor only moves forward, never rewinds. -/
theorem cursorTrace_monotone :
    ∀ {α : Type} [LinearOrderedField α] (times : List α) (c : ℕ)
      (queries : List α), queries.Chain' (· ≤ ·) →
      (c :: cursorTrace times c queries).Chain' (· ≤ ·) := by
  intro α inst times c queries
  induction queries generalizing c with
  | nil => intro _; simp [cursorTrace]
  | cons q rest ih =>
    intro hchain
    have hstep : c ≤ advance times q c := le_advanceIndex times q _ c
    have htail := ih (advance times q c) (List.chain'_cons'.mp hchain).2
    unfold cursorTrace
    exact List.chain'_cons.mpr ⟨hstep, htail⟩

/-- Witness for C7: a concrete non-decreasing query sequence via
`cursorTrace_monotone`. -/
theorem cursorTrace_monotone_w :
    (0 :: cursorTrace (α := ℚ) [0, 1, 2] 0 [0, 1, 5]).Chain' (· ≤ ·) :=
  cursorTrace_monotone [0, 1, 2] 0 [0, 1, 5]
    (by norm_num [List.chain'_cons, List.chain'_singleton])

theorem getElem?_append_cons {β : Type} (l1 : List β) (x : β) (l2 : List β) :
    (l1 ++ x :: l2)[l1.length]? = some x := by
  rw [List.getElem?_append_right (le_refl _)]
  simp

/-- At end of input with a good stream (the trailing-whitespace situation),
the loop body runs once more: both extractions fail at the sentry, leaving
the variables untouched, and one further (duplicated) record is pushed
before `eof()` ends the loop. -/
theorem readLoop_at_eof (file : DopplerFile) (rate : ℝ) (time freq : ℝ)
    (ts fs : List ℝ) :
    readLoop file rate ⟨file.fields.length, false, false⟩ time freq ts fs =
      .ok (ts ++ [time], fs ++ [2 * Real.pi * freq / rate]) := by
  rw [readLoop]
  simp only [extract, List.getElem?_eq_none (le_refl file.fields.length),
    Bool.false_or, Bool.or_self]
  rw [readLoop]
  simp

/-- Evaluation of one extraction on a good stream positioned at a numeric
token that is not a clean final token. -/
theorem extract_num (file : DopplerFile) (pos : ℕ) (q v : ℝ)
    (h : file.fields[pos]? = some (some q))
    (hne : ¬(pos + 1 = file.fields.length ∧ file.trailingWs = false)) :
    extract file ⟨pos, false, false⟩ v = (⟨pos + 1, false, false⟩, q) := by
  have hd : decide (pos + 1 = file.fields.length ∧ file.trailingWs = false) = false :=
    decide_eq_false hne
  simp only [extract, h, Bool.or_self, hd]
  simp

/-- Evaluation of one extraction on a good stream positioned at the final
numeric token of a file with no trailing whitespace: `eofbit` is set. -/
theorem extract_num_final (file : DopplerFile) (pos : ℕ) (q v : ℝ)
    (h : file.fields[pos]? = some (some q))
    (hend : pos + 1 = file.fields.length) (htws : file.trailingWs = false) :
    extract file ⟨pos, false, false⟩ v = (⟨pos + 1, false, true⟩, q) := by
  have hd : decide (pos + 1 = file.fields.length ∧ file.trailingWs = false) = true :=
    decide_eq_true ⟨hend, htws⟩
  simp only [extract, h, Bool.or_self, hd]
  simp

/-- Evaluation of one extraction on a good stream positioned at a
malformed token: `failbit` is set and zero is written. -/
theorem extract_bad (file : DopplerFile) (pos : ℕ) (v : ℝ)
    (h : file.fields[pos]? = some none) :
    extract file ⟨pos, false, false⟩ v = (⟨pos, true, false⟩, 0) := by
  simp [extract, h]

/-- Evaluation of one extraction on a good stream at end of input: the
sentry's whitespace skip fails, setting both flags, `v` untouched. -/
theorem extract_end (file : DopplerFile) (pos : ℕ) (v : ℝ)
    (h : file.fields.length ≤ pos) :
    extract file ⟨pos, false, false⟩ v = (⟨pos, true, true⟩, v) := by
  simp [extract, List.getElem?_eq_none h]

/-- Evaluation of one extraction on a stream whose `failbit` is set: the
sentry fails and the target variable is untouched. -/
theorem extract_failed (file : DopplerFile) (pos : ℕ) (eb : Bool) (v : ℝ) :
    extract file ⟨pos, true, eb⟩ v = (⟨pos, true, eb⟩, v) := by
  simp [extract]

/-- Loop body on a complete record that is not a clean final record: both
fields are extracted and the converted record is pushed. -/
theorem readLoop_record_step (file : DopplerFile) (rate : ℝ) (pos : ℕ)
    (tv fv time freq : ℝ) (ts fs : List ℝ)
    (h1 : file.fields[pos]? = some (some tv))
    (h2 : file.fields[pos + 1]? = some (some fv))
    (hnend : ¬(pos + 2 = file.fields.length ∧ file.trailingWs = false)) :
    readLoop file rate ⟨pos, false, false⟩ time freq ts fs =
      readLoop file rate ⟨pos + 2, false, false⟩ tv fv (ts ++ [tv])
        (fs ++ [2 * Real.pi * fv / rate]) := by
  have hlt1 : pos + 1 < file.fields.length := getElem?_pos_lt _ _ _ h2
  have he1 : extract file ⟨pos, false, false⟩ time = (⟨pos + 1, false, false⟩, tv) :=
    extract_num file pos tv time h1 (by omega)
  have he2 : extract file ⟨pos + 1, false, false⟩ freq =
      (⟨pos + 1 + 1, false, false⟩, fv) :=
    extract_num file (pos + 1) fv freq h2 (fun hc => hnend ⟨by omega, hc.2⟩)
  rw [readLoop]
  simp only [he1, he2]
  simp [show pos + 1 + 1 = pos + 2 from rfl]

/-- Loop body on a clean final record (no trailing whitespace): the second
extraction reaches end of input while reading digits, setting `eofbit`;
the record is pushed and the loop then stops. -/
theorem readLoop_final_record (file : DopplerFile) (rate : ℝ) (pos : ℕ)
    (tv fv time freq : ℝ) (ts fs : List ℝ)
    (h1 : file.fields[pos]? = some (some tv))
    (h2 : file.fields[pos + 1]? = some (some fv))
    (hend : pos + 2 = file.fields.length) (htws : file.trailingWs = false) :
    readLoop file rate ⟨pos, false, false⟩ time freq ts fs =
      .ok (ts ++ [tv], fs ++ [2 * Real.pi * fv / rate]) := by
  have he1 : extract file ⟨pos, false, false⟩ time = (⟨pos + 1, false, false⟩, tv) :=
    extract_num file pos tv time h1 (by intro hc; omega)
  have he2 : extract file ⟨pos + 1, false, false⟩ freq =
      (⟨pos + 1 + 1, false, true⟩, fv) :=
    extract_num_final file (pos + 1) fv freq h2 (by omega) htws
  rw [readLoop]
  simp only [he1, he2]
  rw [readLoop]
  simp

/-- Loop body when the next token is malformed: the first extraction sets
`failbit` (writing zero), the second is a no-op at the failed sentry, a
bogus record is pushed, and the next `good()` check throws. -/
theorem readLoop_bad_first (file : DopplerFile) (rate : ℝ) (pos : ℕ)
    (time freq : ℝ) (ts fs : List ℝ)
    (h1 : file.fields[pos]? = some none) :
    readLoop file rate ⟨pos, false, false⟩ time freq ts fs = .error () := by
  have he1 : extract file ⟨pos, false, false⟩ time = (⟨pos, true, false⟩, 0) :=
    extract_bad file pos time h1
  rw [readLoop]
  simp only [he1, extract_failed]
  rw [readLoop]
  simp

/-- Loop body when a record's second token is malformed: the time field is
read, the frequency extraction fails, a bogus record is pushed, and the
next `good()` check throws. -/
theorem readLoop_bad_second (file : DopplerFile) (rate : ℝ) (pos : ℕ)
    (tv time freq : ℝ) (ts fs : List ℝ)
    (h1 : file.fields[pos]? = some (some tv))
    (h2 : file.fields[pos + 1]? = some none) :
    readLoop file rate ⟨pos, false, false⟩ time freq ts fs = .error () := by
  have hlt1 : pos + 1 < file.fields.length := getElem?_pos_lt _ _ _ h2
  have he1 : extract file ⟨pos, false, false⟩ time = (⟨pos + 1, false, false⟩, tv) :=
    extract_num file pos tv time h1 (by omega)
  have he2 : extract file ⟨pos + 1, false, false⟩ freq = (⟨pos + 1, true, false⟩, 0) :=
    extract_bad file (pos + 1) freq h2
  rw [readLoop]
  simp only [he1, he2]
  rw [readLoop]
  simp

theorem flatRecs_length (recs : List (ℝ × ℝ)) :
    (flatRecs recs).length = 2 * recs.length := by
  induction recs with
  | nil => simp [flatRecs]
  | cons r rest ih => simp [flatRecs, ih]; ring

theorem flatRecs_append (l1 l2 : List (ℝ × ℝ)) :
    flatRecs (l1 ++ l2) = flatRecs l1 ++ flatRecs l2 := by
  induction l1 with
  | nil => simp [flatRecs]
  | cons r rest ih => simp [flatRecs, ih]

/-- Running the read loop over a span of complete records (with more input,
or trailing whitespace, after them): every record is parsed and pushed, and
the loop-carried variables end holding the last record read. -/
theorem readLoop_flat (rate : ℝ) :
    ∀ (recs : List (ℝ × ℝ)) (file : DopplerFile) (done tail : List (Option ℝ))
      (time freq : ℝ) (ts fs : List ℝ),
      file.fields = done ++ flatRecs recs ++ tail →
      (tail = [] → file.trailingWs = true) →
      readLoop file rate ⟨done.length, false, false⟩ time freq ts fs =
        readLoop file rate ⟨done.length + 2 * recs.length, false, false⟩
          (recs.getLastD (time, freq)).1 (recs.getLastD (time, freq)).2
          (ts ++ recs.map Prod.fst)
          (fs ++ recs.map (fun r => 2 * Real.pi * r.2 / rate)) := by
  intro recs
  induction recs with
  | nil =>
    intro file done tail time freq ts fs hf htw
    simp [flatRecs]
  | cons r rest ih =>
    intro file done tail time freq ts fs hf htw
    obtain ⟨t, f⟩ := r
    have hfe : file.fields = done ++ some t :: some f :: (flatRecs rest ++ tail) := by
      simpa [flatRecs] using hf
    have h1 : file.fields[done.length]? = some (some t) := by
      rw [hfe]; exact getElem?_append_cons done (some t) _
    have h2 : file.fields[done.length + 1]? = some (some f) := by
      have h := getElem?_append_cons (done ++ [some t]) (some f) (flatRecs rest ++ tail)
      rw [hfe]
      simpa [List.append_assoc] using h
    have hlen : file.fields.length =
        done.length + 2 + ((flatRecs rest).length + tail.length) := by
      rw [hfe]; simp; ring
    have hnend : ¬(done.length + 2 = file.fields.length ∧
        file.trailingWs = false) := by
      intro hc
      have hz : (flatRecs rest).length + tail.length = 0 := by omega
      have htl : tail = [] := by
        have := List.length_eq_zero.mp (by omega : tail.length = 0)
        exact this
      rw [htw htl] at hc
      exact absurd hc.2 (by simp)
    rw [readLoop_record_step file rate done.length t f time freq ts fs h1 h2 hnend]
    have hstep := ih file (done ++ [some t, some f]) tail t f (ts ++ [t])
      (fs ++ [2 * Real.pi * f / rate])
      (by rw [hfe]; simp [flatRecs]) htw
    simp only [List.length_append, List.length_cons, List.length_nil,
      Nat.zero_add] at hstep
    have harith : done.length + (0 + 1 + 1) = done.length + 2 := by omega
    rw [harith] at hstep
    rw [hstep, List.getLastD_cons]
    have hp : done.length + 2 + 2 * rest.length =
        done.length + 2 * ((t, f) :: rest).length := by
      simp
      omega
    rw [hp]
    simp [List.append_assoc]

/-- A file of complete records followed by trailing whitespace parses
without error, but pushes one extra record repeating the loop variables'
final contents (the last record, or the initial variable contents if there
are no records). -/
theorem read_doppler_trailing (recs : List (ℝ × ℝ)) (rate time0 freq0 : ℝ) :
    read_doppler_file ⟨flatRecs recs, true⟩ rate time0 freq0 =
      .ok (recs.map Prod.fst ++ [(recs.getLastD (time0, freq0)).1],
        recs.map (fun r => 2 * Real.pi * r.2 / rate) ++
          [2 * Real.pi * (recs.getLastD (time0, freq0)).2 / rate]) := by
  unfold read_doppler_file
  have h := readLoop_flat rate recs ⟨flatRecs recs, true⟩ [] [] time0 freq0 [] []
    (by simp) (by simp)
  simp only [List.length_nil, List.nil_append, Nat.zero_add] at h
  rw [h, ← flatRecs_length recs]
  exact readLoop_at_eof ⟨flatRecs recs, true⟩ rate _ _ _ _

/-- A file of at least one complete record with no trailing whitespace
parses without error into exactly its records. -/
theorem read_doppler_clean (recs : List (ℝ × ℝ)) (rate time0 freq0 : ℝ)
    (hne : recs ≠ []) :
    read_doppler_file ⟨flatRecs recs, false⟩ rate time0 freq0 =
      .ok (recs.map Prod.fst, recs.map (fun r => 2 * Real.pi * r.2 / rate)) := by
  obtain ⟨init, last, hrl⟩ : ∃ init last, recs = init ++ [last] :=
    ⟨recs.dropLast, recs.getLast hne, (List.dropLast_append_getLast hne).symm⟩
  subst hrl
  unfold read_doppler_file
  have hflat : flatRecs (init ++ [last]) =
      flatRecs init ++ [some last.1, some last.2] := by
    rw [flatRecs_append]
    simp [flatRecs]
  have h0 := readLoop_flat rate init ⟨flatRecs (init ++ [last]), false⟩ []
    [some last.1, some last.2] time0 freq0 [] [] (by simp [hflat]) (by simp)
  simp only [List.length_nil, List.nil_append, Nat.zero_add] at h0
  rw [h0, ← flatRecs_length init]
  have hfields : (DopplerFile.mk (flatRecs (init ++ [last])) false).fields =
      flatRecs init ++ some last.1 :: some last.2 :: [] := by
    simp [hflat]
  have h1 : (DopplerFile.mk (flatRecs (init ++ [last]))
      false).fields[(flatRecs init).length]? = some (some last.1) := by
    rw [hfields]
    exact getElem?_append_cons _ _ _
  have h2 : (DopplerFile.mk (flatRecs (init ++ [last]))
      false).fields[(flatRecs init).length + 1]? = some (some last.2) := by
    rw [hfields]
    have h := getElem?_append_cons (flatRecs init ++ [some last.1]) (some last.2) []
    simpa [List.append_assoc] using h
  have hend : (flatRecs init).length + 2 =
      (DopplerFile.mk (flatRecs (init ++ [last])) false).fields.length := by
    simp [hflat]
  rw [readLoop_final_record _ rate _ last.1 last.2 _ _ _ _ h1 h2 hend rfl]
  simp

/-- A malformed token in time position aborts parsing with the format
error. -/
theorem read_doppler_bad_time (recs : List (ℝ × ℝ)) (rest : List (Option ℝ))
    (tws : Bool) (rate time0 freq0 : ℝ) :
    read_doppler_file ⟨flatRecs recs ++ none :: rest, tws⟩ rate time0 freq0 =
      .error () := by
  unfold read_doppler_file
  have h := readLoop_flat rate recs ⟨flatRecs recs ++ none :: rest, tws⟩ []
    (none :: rest) time0 freq0 [] [] (by simp) (by simp)
  simp only [List.length_nil, List.nil_append, Nat.zero_add] at h
  rw [h, ← flatRecs_length recs]
  exact readLoop_bad_first _ rate _ _ _ _ _ (getElem?_append_cons _ _ _)

/-- A malformed token in frequency position aborts parsing with the format
error. -/
theorem read_doppler_bad_freq (recs : List (ℝ × ℝ)) (tv : ℝ)
    (rest : List (Option ℝ)) (tws : Bool) (rate time0 freq0 : ℝ) :
    read_doppler_file ⟨flatRecs recs ++ some tv :: none :: rest, tws⟩ rate
      time0 freq0 = .error () := by
  unfold read_doppler_file
  have h := readLoop_flat rate recs
    ⟨flatRecs recs ++ some tv :: none :: rest, tws⟩ [] (some tv :: none :: rest)
    time0 freq0 [] [] (by simp) (by simp)
  simp only [List.length_nil, List.nil_append, Nat.zero_add] at h
  rw [h, ← flatRecs_length recs]
  have h1 : (DopplerFile.mk (flatRecs recs ++ some tv :: none :: rest)
      tws).fields[(flatRecs recs).length]? = some (some tv) :=
    getElem?_append_cons _ _ _
  have h2 : (DopplerFile.mk (flatRecs recs ++ some tv :: none :: rest)
      tws).fields[(flatRecs recs).length + 1]? = some none := by
    have h := getElem?_append_cons (flatRecs recs ++ [some tv]) none rest
    simpa [List.append_assoc] using h
  exact readLoop_bad_second _ rate _ tv _ _ _ _ h1 h2

/-- Any successful run of the read loop pushes the two vectors in lock-step
(equal increments) and, started from a good stream, pushes at least one
record. -/
theorem readLoop_ok_lengths (file : DopplerFile) (rate : ℝ) :
    ∀ (n : ℕ) (s : StreamState) (time freq : ℝ) (ts fs T F : List ℝ),
      smeasure file s ≤ n →
      readLoop file rate s time freq ts fs = .ok (T, F) →
      (ts.length = fs.length → T.length = F.length) ∧
      (s.eofbit = false → ts.length < T.length) := by
  intro n
  induction n using Nat.strong_induction_on with
  | _ n ih =>
    intro s time freq ts fs T F hm h
    rw [readLoop] at h
    by_cases heof : s.eofbit = true
    · rw [if_pos heof] at h
      have h2 : (ts, fs) = (T, F) := by injection h
      have hT : ts = T := congrArg Prod.fst h2
      have hF : fs = F := congrArg Prod.snd h2
      subst hT hF
      exact ⟨fun hl => hl, fun hc => absurd heof (by simp [hc])⟩
    · rw [if_neg heof] at h
      by_cases hfail : s.failbit = true
      · rw [if_pos hfail] at h
        exact absurd h (by simp)
      · rw [if_neg hfail] at h
        dsimp only at h
        have hdec : smeasure file
            (extract file (extract file s time).1 freq).1 < smeasure file s :=
          lt_of_le_of_lt (extract_smeasure_le _ _ _)
            (extract_smeasure_lt _ _ _ (by simpa using hfail)
              (by simpa using heof))
        have ihh := ih (smeasure file (extract file (extract file s time).1 freq).1)
          (by omega) (extract file (extract file s time).1 freq).1
          (extract file s time).2 (extract file (extract file s time).1 freq).2
          (ts ++ [(extract file s time).2])
          (fs ++ [2 * Real.pi * (extract file (extract file s time).1 freq).2 / rate])
          T F (le_refl _) h
        refine ⟨fun hl => ihh.1 (by simp [hl]), fun _ => ?_⟩
        rcases heb2 : (extract file (extract file s time).1 freq).1.eofbit with _ | _
        · have h2 := ihh.2 heb2
          simp only [List.length_append, List.length_cons, List.length_nil] at h2
          omega
        · rw [readLoop] at h
          rw [heb2] at h
          simp only [if_true] at h
          have h3 : (ts ++ [(extract file s time).2],
              fs ++ [2 * Real.pi *
                (extract file (extract file s time).1 freq).2 / rate]) = (T, F) := by
            injection h
          have hT : ts ++ [(extract file s time).2] = T := congrArg Prod.fst h3
          rw [← hT]
          simp

/-- C6: a malformed token (in either field position) before a clean end of
input makes `read_doppler_file` fail with the format error, while
trailing whitespace or end of input after a complete record is not an
error — the load succeeds. -/
theorem read_doppler_file_error_policy :
    (∀ (recs : List (ℝ × ℝ)) (rest : List (Option ℝ)) (tws : Bool)
       (rate time0 freq0 : ℝ),
      read_doppler_file ⟨flatRecs recs ++ none :: rest, tws⟩ rate time0 freq0 =
        .error ()) ∧
    (∀ (recs : List (ℝ × ℝ)) (tv : ℝ) (rest : List (Option ℝ)) (tws : Bool)
       (rate time0 freq0 : ℝ),
      read_doppler_file ⟨flatRecs recs ++ some tv :: none :: rest, tws⟩ rate
        time0 freq0 = .error ()) ∧
    (∀ (recs : List (ℝ × ℝ)) (rate time0 freq0 : ℝ),
      read_doppler_file ⟨flatRecs recs, true⟩ rate time0 freq0 ≠ .error ()) ∧
    (∀ (recs : List (ℝ × ℝ)) (rate time0 freq0 : ℝ), recs ≠ [] →
      read_doppler_file ⟨flatRecs recs, false⟩ rate time0 freq0 ≠ .error ()) := by
  refine ⟨read_doppler_bad_time, read_doppler_bad_freq, ?_, ?_⟩
  · intro recs rate time0 freq0
    rw [read_doppler_trailing]
    simp
  · intro recs rate time0 freq0 hne
    rw [read_doppler_clean recs rate time0 freq0 hne]
    simp

/-- Witness for C6: the spec's `"abc def"` scenario (two malformed tokens)
fails, while a complete one-record file loads, via
`read_doppler_file_error_policy`. -/
theorem read_doppler_file_error_policy_w :
    read_doppler_file ⟨[none, none], false⟩ 1 0 0 = .error () ∧
    read_doppler_file ⟨flatRecs [(1, 2)], false⟩ 1 0 0 ≠ .error () := by
  constructor
  · have h := read_doppler_file_error_policy.1 [] [none] false 1 0 0
    simpa [flatRecs] using h
  · exact read_doppler_file_error_policy.2.2.2 [(1, 2)] 1 0 0 (by simp)

/-- C10 counterexample: a one-record file `5 3` with a trailing newline
(sample rate 1) parses to two records, the extra one *duplicating* the
last record — not the `(0, 0)` record the claim asserts (the failed final
extractions fail at the sentry and never zero the variables). -/
theorem read_doppler_file_extra_record_cex :
    read_doppler_file ⟨[some 5, some 3], true⟩ 1 0 0 =
      .ok ([5, 5], [2 * Real.pi * 3 / 1, 2 * Real.pi * 3 / 1]) ∧
    read_doppler_file ⟨[some 5, some 3], true⟩ 1 0 0 ≠
      .ok ([5, 0], [2 * Real.pi * 3 / 1, 2 * Real.pi * 0 / 1]) := by
  have h := read_doppler_trailing [(5, 3)] 1 0 0
  simp only [flatRecs] at h
  have h5 : read_doppler_file ⟨[some 5, some 3], true⟩ 1 0 0 =
      .ok ([5, 5], [2 * Real.pi * 3 / 1, 2 * Real.pi * 3 / 1]) := by
    simpa using h
  refine ⟨h5, ?_⟩
  rw [h5]
  simp only [ne_eq, Except.ok.injEq, Prod.mk.injEq, not_and]
  intro hc
  have : (5 : ℝ) = 0 := by
    have := List.cons.injEq (5 : ℝ) [5] 5 [0] ▸ hc
    simpa using hc
  norm_num at this

/-- C10 amended: a source of complete records followed by trailing
whitespace (including an empty or all-whitespace source) succeeds and
appends one extra record beyond the complete records, holding the values
left in the extraction variables — a duplicate of the last record, or the
indeterminate initial variable contents for an empty source. -/
theorem read_doppler_file_appends_duplicate :
    (∀ (recs : List (ℝ × ℝ)) (rate time0 freq0 : ℝ),
      read_doppler_file ⟨flatRecs recs, true⟩ rate time0 freq0 =
        .ok (recs.map Prod.fst ++ [(recs.getLastD (time0, freq0)).1],
          recs.map (fun r => 2 * Real.pi * r.2 / rate) ++
            [2 * Real.pi * (recs.getLastD (time0, freq0)).2 / rate])) ∧
    (∀ rate time0 freq0 : ℝ,
      read_doppler_file ⟨[], true⟩ rate time0 freq0 =
        .ok ([time0], [2 * Real.pi * freq0 / rate])) := by
  constructor
  · exact read_doppler_trailing
  · intro rate time0 freq0
    have h := read_doppler_trailing [] rate time0 freq0
    simpa [flatRecs] using h

/-- C4 counterexample: an empty (zero-record) source does not fail —
`read_doppler_file` succeeds and produces a one-entry table (here with the
indeterminate variable contents taken to be zero). -/
theorem read_doppler_file_empty_cex :
    read_doppler_file ⟨[], true⟩ 1 0 0 = .ok ([0], [0]) ∧
    read_doppler_file ⟨[], true⟩ 1 0 0 ≠ .error () := by
  have h := read_doppler_trailing [] 1 0 0
  simp [flatRecs] at h
  exact ⟨h, by rw [h]; simp⟩

/-- C4 amended: a zero-record source does not fail (see the
counterexample); what does hold is the postcondition that every successful
load yields `times` and `freqs_rad_per_sample` of equal, non-empty
length. -/
theorem read_doppler_file_ok_lengths :
    ∀ (file : DopplerFile) (rate time0 freq0 : ℝ) (T F : List ℝ),
      read_doppler_file file rate time0 freq0 = .ok (T, F) →
      T.length = F.length ∧ T ≠ [] := by
  intro file rate time0 freq0 T F h
  have hinv := readLoop_ok_lengths file rate (smeasure file ⟨0, false, false⟩)
    ⟨0, false, false⟩ time0 freq0 [] [] T F (le_refl _) h
  refine ⟨hinv.1 rfl, ?_⟩
  have hlen := hinv.2 rfl
  intro hT
  rw [hT] at hlen
  simp at hlen

/-- Witness for C4's amended postcondition: a concrete successful load,
via `read_doppler_file_ok_lengths`. -/
theorem read_doppler_file_ok_lengths_w :
    [(1 : ℝ)].length = [2 * Real.pi * 2 / 1].length ∧ [(1 : ℝ)] ≠ [] := by
  have h : read_doppler_file ⟨flatRecs [(1, 2)], false⟩ 1 0 0 =
      .ok ([1], [2 * Real.pi * 2 / 1]) := by
    have hc := read_doppler_clean [(1, 2)] 1 0 0 (by simp)
    simpa using hc
  exact read_doppler_file_ok_lengths _ 1 0 0 _ _ h

/-- C5 counterexample: constructing with the negative sample rate `-1`
does not fail — no sample-rate validation exists; a block instance is
produced (with the rate folded into the stored frequencies). -/
theorem doppler_correction_impl_negative_rate_cex :
    doppler_correction_impl ⟨flatRecs [(1, 2)], false⟩ (-1) 0 0 0 =
      .ok { d_phase := 0, d_samp_rate := -1, d_current_index := 0, d_t0 := 0,
            d_sample_t0 := 0, times := [1],
            freqs_rad_per_sample := [2 * Real.pi * 2 / (-1)] } := by
  unfold doppler_correction_impl
  rw [read_doppler_clean [(1, 2)] (-1) 0 0 (by simp)]
  simp

/-- C5 amended: the constructor performs no sample-rate validation at all:
for every sample rate (non-positive included) it succeeds whenever the
Doppler file loads, storing the rate unchecked. -/
theorem doppler_correction_impl_no_rate_check :
    ∀ (file : DopplerFile) (samp_rate t0 time0 freq0 : ℝ) (T F : List ℝ),
      read_doppler_file file samp_rate time0 freq0 = .ok (T, F) →
      doppler_correction_impl file samp_rate t0 time0 freq0 =
        .ok { d_phase := 0, d_samp_rate := samp_rate, d_current_index := 0,
              d_t0 := t0, d_sample_t0 := 0, times := T,
              freqs_rad_per_sample := F } := by
  intro file samp_rate t0 time0 freq0 T F h
  unfold doppler_correction_impl
  rw [h]

/-- Witness for C5's amended claim: a concrete construction at sample rate
`-1`, via `doppler_correction_impl_no_rate_check`. -/
theorem doppler_correction_impl_no_rate_check_w :
    doppler_correction_impl ⟨flatRecs [(1, 2)], false⟩ (-1) 7 0 0 =
      .ok { d_phase := 0, d_samp_rate := -1, d_current_index := 0, d_t0 := 7,
            d_sample_t0 := 0, times := [1],
            freqs_rad_per_sample := [2 * Real.pi * 2 / (-1)] } := by
  have h := read_doppler_clean [(1, 2)] (-1) 0 0 (by simp)
  exact doppler_correction_impl_no_rate_check _ (-1) 7 0 0 _ _ (by simpa using h)

/-- The sample loop never touches the time anchor, the sample rate, or the
table. -/
theorem workLoop_fields (nw : ℕ) :
    ∀ (input : List ℂ) (s : DopplerBlock) (j : ℕ),
      (workLoop nw s j input).1.d_t0 = s.d_t0 ∧
      (workLoop nw s j input).1.d_sample_t0 = s.d_sample_t0 ∧
      (workLoop nw s j input).1.d_samp_rate = s.d_samp_rate ∧
      (workLoop nw s j input).1.times = s.times ∧
      (workLoop nw s j input).1.freqs_rad_per_sample = s.freqs_rad_per_sample := by
  intro input
  induction input with
  | nil => intro s j; simp [workLoop]
  | cons x xs ih =>
    intro s j
    have h := ih (sampleStep s nw j x).1 (j + 1)
    simp only [workLoop]
    simpa [sampleStep] using h

/-- The tag loop never touches the phase, the sample rate, or the table. -/
theorem applyTags_fields :
    ∀ (tags : List RxTimeTag) (s : DopplerBlock),
      (applyTags s tags).d_phase = s.d_phase ∧
      (applyTags s tags).d_samp_rate = s.d_samp_rate ∧
      (applyTags s tags).times = s.times ∧
      (applyTags s tags).freqs_rad_per_sample = s.freqs_rad_per_sample := by
  intro tags
  induction tags with
  | nil => intro s; simp [applyTags]
  | cons tag rest ih =>
    intro s
    have hfold : applyTags s (tag :: rest) =
        applyTags (if tag.isTuple then
          { s with
              d_sample_t0 := tag.offset,
              d_t0 := (tag.secs : ℝ) + tag.frac } else s) rest := by
      simp [applyTags]
    rw [hfold]
    rcases htag : tag.isTuple with _ | _
    · simpa [htag] using ih s
    · simpa [htag] using
        ih { s with d_sample_t0 := tag.offset, d_t0 := (tag.secs : ℝ) + tag.frac }

/-- C3 amended: `work` applies every `rx_time` tag of the buffer *before*
processing any sample, so the `TimeAnchor` state observed at every sample
`j` — including samples at offsets before a tag's offset — is the state
after applying all tags of the buffer (in list order, last one winning),
and the time used at sample `j` is computed from that final anchor. -/
theorem work_applies_all_tags_first :
    ∀ (s : DopplerBlock) (nw : ℕ) (tags : List RxTimeTag) (input : List ℂ)
      (j : ℕ),
      anchorAtSample s nw tags input j =
        ((applyTags s tags).d_t0, (applyTags s tags).d_sample_t0) ∧
      timeAtSample s nw tags input j = sampleTime (applyTags s tags) nw j ∧
      work s nw tags input = workLoop nw (applyTags s tags) 0 input := by
  intro s nw tags input j
  have hw := workLoop_fields nw (input.take j) (applyTags s tags) 0
  refine ⟨?_, ?_, rfl⟩
  · unfold anchorAtSample
    rw [hw.1, hw.2.1]
  · unfold timeAtSample sampleTime
    rw [hw.1, hw.2.1, hw.2.2.1]

/-- C3 counterexample: with held anchor `(t0 = 0, sample_index 0)`, sample
rate 1, buffer start `nitems_written = 0` and a single `rx_time` tag at
intra-buffer offset `k = 1` carrying time 100, the time `work` uses for
sample `j = 0 < k` is `100 + (0 - 1 + 0)/1 = 99` — computed from the *new*
anchor — not the time 0 the previously held anchor's formula gives. -/
theorem work_anchor_override_cex :
    timeAtSample ⟨0, 1, 0, 0, 0, [0], [0]⟩ 0 [⟨1, true, 100, 0⟩] [1, 1] 0 = 99 ∧
    sampleTime ⟨0, 1, 0, 0, 0, [0], [0]⟩ 0 0 = 0 ∧
    (99 : ℝ) ≠ 0 := by
  refine ⟨?_, ?_, by norm_num⟩
  · unfold timeAtSample
    simp [workLoop, applyTags, sampleTime]
    norm_num
  · simp [sampleTime]

/-- The wrapped phase always lies in the canonical band `[-π, π]`. -/
theorem abs_phase_wrap_le (x : ℝ) : |phase_wrap x| ≤ Real.pi := by
  have h2π : (0 : ℝ) < 2 * Real.pi := by positivity
  have hrw : phase_wrap x =
      2 * Real.pi * (x / (2 * Real.pi) - round (x / (2 * Real.pi))) := by
    field_simp [phase_wrap]
    try ring
  rw [hrw, abs_mul, abs_of_pos h2π]
  have hr := abs_sub_round (x / (2 * Real.pi))
  calc 2 * Real.pi * |x / (2 * Real.pi) - round (x / (2 * Real.pi))|
      ≤ 2 * Real.pi * (1 / 2) :=
        mul_le_mul_of_nonneg_left hr (le_of_lt h2π)
    _ = Real.pi := by ring

/-- The oscillator sample always has magnitude exactly 1. -/
theorem abs_gr_expj (x : ℝ) : Complex.abs (gr_expj x) = 1 :=
  Complex.abs_exp_ofReal_mul_I x

/-- The phase stays in the canonical band across any number of sample
iterations. -/
theorem workLoop_phase (nw : ℕ) :
    ∀ (input : List ℂ) (s : DopplerBlock) (j : ℕ), |s.d_phase| ≤ Real.pi →
      |(workLoop nw s j input).1.d_phase| ≤ Real.pi := by
  intro input
  induction input with
  | nil => intro s j hs; simpa [workLoop] using hs
  | cons x xs ih =>
    intro s j _
    have h := ih (sampleStep s nw j x).1 (j + 1) (by simp [sampleStep, abs_phase_wrap_le])
    simpa [workLoop] using h

/-- C8: after any number of sample updates with any per-sample frequency
increments, the accumulated phase `d_phase` stays in the canonical wrap
band `[-π, π]` (the wrap is applied after every increment), the oscillator
sample has magnitude exactly 1, and a freshly constructed block starts
inside the band (phase 0) — so no unbounded phase growth over arbitrarily
long streams. -/
theorem work_phase_stays_wrapped :
    (∀ (s : DopplerBlock) (nw : ℕ) (tags : List RxTimeTag) (input : List ℂ),
      |s.d_phase| ≤ Real.pi → |(work s nw tags input).1.d_phase| ≤ Real.pi) ∧
    (∀ x : ℝ, |phase_wrap x| ≤ Real.pi) ∧
    (∀ x : ℝ, Complex.abs (gr_expj x) = 1) ∧
    (∀ (file : DopplerFile) (samp_rate t0 time0 freq0 : ℝ) (e : DopplerBlock),
      doppler_correction_impl file samp_rate t0 time0 freq0 = .ok e →
      |e.d_phase| ≤ Real.pi) := by
  refine ⟨?_, abs_phase_wrap_le, abs_gr_expj, ?_⟩
  · intro s nw tags input hs
    unfold work
    apply workLoop_phase
    rw [(applyTags_fields tags s).1]
    exact hs
  · intro file samp_rate t0 time0 freq0 e h
    unfold doppler_correction_impl at h
    rcases hread : read_doppler_file file samp_rate time0 freq0 with _ | tf
    · rw [hread] at h
      exact absurd h (by simp)
    · rw [hread] at h
      dsimp only at h
      have h2 := Except.ok.inj h
      rw [← h2]
      simpa using Real.pi_nonneg

/-- Witness for C8: a concrete freshly-initialized block keeps its phase
in the band, via `work_phase_stays_wrapped`. -/
theorem work_phase_stays_wrapped_w :
    |(work ⟨0, 1, 0, 0, 0, [0], [0]⟩ 0 [] []).1.d_phase| ≤ Real.pi :=
  work_phase_stays_wrapped.1 ⟨0, 1, 0, 0, 0, [0], [0]⟩ 0 [] []
    (by simpa using Real.pi_nonneg)

theorem getD_zero_of_all_zero (l : List ℝ) (hl : ∀ f ∈ l, f = 0) (n : ℕ) :
    l.getD n 0 = 0 := by
  rcases h : l[n]? with _ | a
  · simp [List.getD_eq_getElem?_getD, h]
  · have ha := hl a (List.getElem?_mem h)
    simp [List.getD_eq_getElem?_getD, h, ha]

/-- On an all-zero frequency table, the lookup returns 0 whether it holds
or interpolates. -/
theorem lookupFreq_zero (times freqs : List ℝ) (c : ℕ) (t : ℝ)
    (hf : ∀ f ∈ freqs, f = 0) : lookupFreq times freqs c t = 0 := by
  unfold lookupFreq
  split
  · exact getD_zero_of_all_zero freqs hf c
  · rw [getD_zero_of_all_zero freqs hf c, getD_zero_of_all_zero freqs hf (c + 1)]
    ring

theorem phase_wrap_zero : phase_wrap 0 = 0 := by
  simp [phase_wrap]

/-- With zero phase and an all-zero table, one sample step is the
identity on the sample and keeps the phase at zero. -/
theorem sampleStep_id (s : DopplerBlock) (nw j : ℕ) (x : ℂ)
    (hp : s.d_phase = 0) (hf : ∀ f ∈ s.freqs_rad_per_sample, f = 0) :
    (sampleStep s nw j x).2 = x ∧
    (sampleStep s nw j x).1.d_phase = 0 ∧
    (sampleStep s nw j x).1.freqs_rad_per_sample = s.freqs_rad_per_sample := by
  have hz := lookupFreq_zero s.times s.freqs_rad_per_sample
    (advance s.times (sampleTime s nw j) s.d_current_index) (sampleTime s nw j) hf
  refine ⟨?_, ?_, by simp [sampleStep]⟩
  · simp [sampleStep, hz, hp, phase_wrap_zero, gr_expj]
  · simp [sampleStep, hz, hp, phase_wrap_zero]

/-- With zero phase and an all-zero table, the sample loop copies its
input unchanged. -/
theorem workLoop_id (nw : ℕ) :
    ∀ (input : List ℂ) (s : DopplerBlock) (j : ℕ), s.d_phase = 0 →
      (∀ f ∈ s.freqs_rad_per_sample, f = 0) →
      (workLoop nw s j input).2 = input := by
  intro input
  induction input with
  | nil => intro s j _ _; simp [workLoop]
  | cons x xs ih =>
    intro s j hp hf
    obtain ⟨hx, hp2, hf2⟩ := sampleStep_id s nw j x hp hf
    have htail := ih (sampleStep s nw j x).1 (j + 1) hp2 (hf2 ▸ hf)
    simp only [workLoop]
    rw [hx, htail]

/-- C9: if every stored table frequency is exactly 0, then starting from
the constructor's initial phase 0 the phase stays 0, the oscillator is the
identity rotation, and `work` returns its input buffer exactly; and every
successfully constructed block does start with phase 0. -/
theorem work_identity_on_zero_table :
    (∀ (s : DopplerBlock) (nw : ℕ) (tags : List RxTimeTag) (input : List ℂ),
      s.d_phase = 0 → (∀ f ∈ s.freqs_rad_per_sample, f = 0) →
      (work s nw tags input).2 = input) ∧
    (∀ (file : DopplerFile) (samp_rate t0 time0 freq0 : ℝ) (e : DopplerBlock),
      doppler_correction_impl file samp_rate t0 time0 freq0 = .ok e →
      e.d_phase = 0) := by
  constructor
  · intro s nw tags input hp hf
    unfold work
    have ha := applyTags_fields tags s
    exact workLoop_id nw input (applyTags s tags) 0 (ha.1.trans hp)
      (ha.2.2.2 ▸ hf)
  · intro file samp_rate t0 time0 freq0 e h
    unfold doppler_correction_impl at h
    rcases hread : read_doppler_file file samp_rate time0 freq0 with _ | tf
    · rw [hread] at h
      exact absurd h (by simp)
    · rw [hread] at h
      dsimp only at h
      have h2 := Except.ok.inj h
      rw [← h2]

/-- Witness for C9: a concrete zero-frequency table and buffer, via
`work_identity_on_zero_table`. -/
theorem work_identity_on_zero_table_w :
    (work ⟨0, 1000, 0, 0, 0, [0], [0]⟩ 0 [] [1, Complex.I]).2 =
      [1, Complex.I] :=
  work_identity_on_zero_table.1 ⟨0, 1000, 0, 0, 0, [0], [0]⟩ 0 [] [1, Complex.I]
    rfl (by simp)

/-- Glue: each sample iteration of `work` performs exactly the
advance-then-lookup of `queryFrequency` on the block's table, integrating
the result into the phase. -/
theorem sampleStep_uses_queryFrequency (s : DopplerBlock) (nw j : ℕ) (x : ℂ) :
    (sampleStep s nw j x).1.d_phase =
      phase_wrap (s.d_phase + queryFrequency s.times s.freqs_rad_per_sample
        s.d_current_index (sampleTime s nw j)) ∧
    (sampleStep s nw j x).1.d_current_index =
      advance s.times (sampleTime s nw j) s.d_current_index := by
  constructor <;> simp [sampleStep, queryFrequency]
